import Mathlib

/-!
Shallow embedding of the crossword CSP solver
(`src/ai50/projects/2020/x/crossword/generate.py`, class `CrosswordCreator`).

Python strings are modelled as `List Char`; Python's `s[i]` character access
is modelled with `l[i]?` (`Option Char`).  The puzzle model (`crossword.py`,
class `Crossword`) is not part of the sources, so it is modelled from the
spec as a structure carrying the invariants §3 states for it.  The mutable
`self.domains` dictionary is modelled as a function `Variable → List Word`
updated with `Function.update`; mutation is explicit state passing.
-/

/-- Modelled from the spec: slot direction, `direction ∈ {ACROSS, DOWN}`
(`crossword.py` is external to src/). -/
inductive Direction where
  | across : Direction
  | down : Direction
deriving DecidableEq, Repr

/-- Modelled from the spec: a `Variable` "identifies one grid slot.
Attributes: starting row `i`, starting column `j`, `length`, `direction`;
two variables are equal iff all four attributes match" (§3).
A Python object with no `__bool__`/`__len__` override is always truthy,
which `variableFalsy` below records. -/
structure Variable where
  i : Nat
  j : Nat
  length : Nat
  direction : Direction
deriving DecidableEq, Repr

/-- A word of the vocabulary: the character sequence of a Python string. -/
abbrev Word := List Char

/-- The domain store: each variable's current list of candidate words. -/
abbrev Doms := Variable → List Word

/-- A (partial) assignment, in dict insertion order: a Python dict
variable → word with unique keys. -/
abbrev Asg := List (Variable × Word)

/-- Modelled from the spec: the puzzle model of `crossword.py` (external to
src/): the variable set, the deduplicated vocabulary, and the overlap table,
which is `None`-or-index-pair valued, defined only on pairs of distinct
variables, and symmetric (§3, §6). -/
structure Crossword where
  vars : List Variable
  words : List Word
  overlaps : Variable → Variable → Option (Nat × Nat)
  vars_nodup : vars.Nodup
  words_nodup : words.Nodup
  overlaps_mem : ∀ x y p, overlaps x y = some p → x ∈ vars ∧ y ∈ vars
  overlaps_irrefl : ∀ x, overlaps x x = none
  overlaps_symm : ∀ x y i j, overlaps x y = some (i, j) → overlaps y x = some (j, i)

/-- Modelled from the spec: `Crossword.neighbors(var)` — the variables other
than `var` whose overlap entry with `var` is not `None` (§3). -/
def neighbors (cw : Crossword) (x : Variable) : List Variable :=
  cw.vars.filter (fun v => decide (v ≠ x) && (cw.overlaps v x).isSome)

/-- Python `var in assignment`: dict key membership. -/
def assigned (asg : Asg) (v : Variable) : Bool :=
  (asg.lookup v).isSome

/-- `self.domains = {var: self.crossword.words.copy() for var in ...}`
(`__init__`). -/
def initialDoms (cw : Crossword) : Doms :=
  fun _ => cw.words

/-- Python `set.remove`: removes the element, raising `KeyError` (modelled
as `none`) when it is absent. -/
def setRemove (dom : List Word) (x : Word) : Option (List Word) :=
  if x ∈ dom then some (dom.erase x) else none

/-- The inner loop of `enforce_node_consistency` for one variable:
`for x in self.crossword.words: if len(x) != var.length: domains[var].remove(x)`. -/
def encVarFold (len : Nat) (words : List Word) (dom : List Word) : Option (List Word) :=
  words.foldlM (fun d x => if x.length ≠ len then setRemove d x else some d) dom

/-- `enforce_node_consistency` (generate.py:97-106).  The `set.remove` calls
can raise `KeyError`, hence the `Option` result. -/
def enforce_node_consistency (cw : Crossword) (doms : Doms) : Option Doms :=
  cw.vars.foldlM
    (fun ds var => (encVarFold var.length cw.words (ds var)).map
      (fun d => Function.update ds var d)) doms

/-- The inner `for val2 in self.domains[y]` loop of `revise`: `val1` has a
supporting `val2` iff some `val2` is a different word matching at the overlap
(generate.py:123-126). -/
def hasSupport (i j : Nat) (dy : List Word) (v1 : Word) : Bool :=
  dy.any (fun v2 => decide (v1 ≠ v2) && decide (v1[i]? = v2[j]?))

/-- `revise(x, y)` (generate.py:108-132): when `x` and `y` overlap, remove
from `domains[x]` every candidate with no support in `domains[y]`; the flag
records whether a removal was made. -/
def revise (cw : Crossword) (doms : Doms) (x y : Variable) : Doms × Bool :=
  match cw.overlaps x y with
  | none => (doms, false)
  | some (i, j) =>
    (Function.update doms x ((doms x).filter (hasSupport i j (doms y))),
     (doms x).any (fun v1 => !hasSupport i j (doms y) v1))

/-- Modelled from the spec: `Variable` is a plain value type (§3, §9;
`crossword.py` is external), so Python's `not x` on a variable is always
`False` — the `if not x or not y` test in `ac3` can never fire. -/
def variableFalsy (_ : Variable) : Bool := false

/-- Total number of candidates over all variables; the termination measure
of the AC-3 work loop. -/
def totalSize (cw : Crossword) (doms : Doms) : Nat :=
  (cw.vars.map (fun v => (doms v).length)).sum

/-- The default work list of `ac3`: all ordered pairs of distinct variables
(`itertools.product(variables, repeat=2)` filtered, generate.py:143-148). -/
def allArcs (cw : Crossword) : List (Variable × Variable) :=
  (cw.vars.flatMap (fun a => cw.vars.map (fun b => (a, b)))).filter
    (fun p => decide (p.1 ≠ p.2))

/-- The `while arcs:` loop of `ac3` (generate.py:150-161).  The stack is
kept top-first: Python pops from and appends to the end of the list; set
iteration order for the re-enqueued neighbours is unspecified. -/
def ac3Loop (cw : Crossword) (doms : Doms) (arcs : List (Variable × Variable)) :
    Doms × Bool :=
  match arcs with
  | [] => (doms, true)
  | (x, y) :: rest =>
    if h : (revise cw doms x y).2 = true then
      if variableFalsy x || variableFalsy y then ((revise cw doms x y).1, false)
      else
        ac3Loop cw (revise cw doms x y).1
          ((((neighbors cw x).filter (fun z => decide (z ≠ y))).map (fun z => (z, x))) ++ rest)
    else ac3Loop cw (revise cw doms x y).1 rest
termination_by (totalSize cw doms, arcs.length)
decreasing_by
  · refine Prod.Lex.left _ _ ?_
    cases hov : cw.overlaps x y with
    | none => simp [revise, hov] at h
    | some p =>
      obtain ⟨i, j⟩ := p
      simp only [revise, hov] at h ⊢
      have hx : x ∈ cw.vars := (cw.overlaps_mem x y (i, j) hov).1
      rcases List.any_eq_true.mp h with ⟨v1, hv1, hbad⟩
      have hlt : ((doms x).filter (hasSupport i j (doms y))).length < (doms x).length := by
        refine lt_of_le_of_ne (List.length_filter_le _ _) ?_
        intro heq
        have hself := List.filter_eq_self.mp ((List.filter_sublist _).eq_of_length heq)
        have := hself v1 hv1
        simp [this] at hbad
      unfold totalSize
      refine List.sum_lt_sum _ _ ?_ ⟨x, hx, ?_⟩
      · intro v _
        by_cases hvx : v = x
        · subst hvx; simpa [Function.update_same] using le_of_lt hlt
        · simp [Function.update_noteq hvx]
      · simpa [Function.update_same] using hlt
  · have hfalse : (revise cw doms x y).2 = false := by
      simpa using h
    have heq : (revise cw doms x y).1 = doms := by
      cases hov : cw.overlaps x y with
      | none => simp [revise, hov]
      | some p =>
        obtain ⟨i, j⟩ := p
        simp only [revise, hov] at hfalse ⊢
        have hall : ∀ v1 ∈ doms x, hasSupport i j (doms y) v1 = true := by
          intro v1 hv1
          by_contra hc
          have hone : (doms x).any (fun v1 => !hasSupport i j (doms y) v1) = true :=
            List.any_eq_true.mpr ⟨v1, hv1, by simpa using hc⟩
          simp [hone] at hfalse
        rw [List.filter_eq_self.mpr hall, Function.update_eq_self]
    rw [heq]
    exact Prod.Lex.right _ (Nat.lt_succ_self _)

/-- `ac3(arcs=None)` (generate.py:134-161).  Python's `if not arcs:` treats
both `None` and an empty list as "use the default work list". -/
def ac3 (cw : Crossword) (doms : Doms) (arcs : Option (List (Variable × Variable))) :
    Doms × Bool :=
  ac3Loop cw doms
    (match arcs with
     | none => allArcs cw
     | some l => if l.isEmpty then allArcs cw else l)

/-- `assignment_complete` (generate.py:163-175): the assignment has as many
entries as there are variables and no entry's value is falsy (empty). -/
def assignment_complete (cw : Crossword) (asg : Asg) : Bool :=
  if asg.length ≠ cw.vars.length then false
  else asg.all (fun p => !p.2.isEmpty)

/-- The binary-constraint check of one iteration of `consistent`'s loop
(generate.py:202-209): every already-assigned neighbour's word must agree at
the overlap indices.  Python's `assignment[v][i]` is modelled with `[i]?`. -/
def neighborsOk (cw : Crossword) (asg : Asg) (v : Variable) (w : Word) : Bool :=
  (neighbors cw v).all (fun n =>
    match asg.lookup n with
    | none => true
    | some wn =>
      match cw.overlaps v n with
      | some (i, j) => decide (w[i]? = wn[j]?)
      | none => true)

/-- The `for selected_variable in assignment` loop of `consistent`
(generate.py:185-211), iterating over the remaining entries while `seen`
plays the role of the accumulated `distinct_values` set.  A falsy (empty)
word is skipped entirely by the `if not assignment[selected_variable]:
continue` guard. -/
def consistentAux (cw : Crossword) (asg : Asg) : List (Variable × Word) → List Word → Bool
  | [], _ => true
  | (v, w) :: rest, seen =>
    if w.isEmpty then consistentAux cw asg rest seen
    else if w.length ≠ v.length then false
    else if w ∈ seen then false
    else if !neighborsOk cw asg v w then false
    else consistentAux cw asg rest (w :: seen)

/-- `consistent(assignment)` (generate.py:177-211). -/
def consistent (cw : Crossword) (asg : Asg) : Bool :=
  consistentAux cw asg asg []

/-- One step of the `for v in self.crossword.variables` loop of
`select_unassigned_variable` (generate.py:258-274). -/
def selStep (cw : Crossword) (doms : Doms) (asg : Asg)
    (choice : Option Variable) (v : Variable) : Option Variable :=
  if assigned asg v then choice
  else
    match choice with
    | none => some v
    | some c =>
      if (doms v).length < (doms c).length then some v
      else if (doms v).length = (doms c).length then
        if (neighbors cw v).length > (neighbors cw c).length then some v else choice
      else choice

/-- `select_unassigned_variable` (generate.py:247-276): fold the MRV/degree
choice over the variables, starting from `choice = None`. -/
def select_unassigned_variable (cw : Crossword) (doms : Doms) (asg : Asg) :
    Option Variable :=
  cw.vars.foldl (selStep cw doms asg) none

/-- Lexicographic comparison of Python strings by code points (used by
`list.sort` when the `conflicts` components of two tuples are equal). -/
def wordLe : Word → Word → Bool
  | [], _ => true
  | _ :: _, [] => false
  | c :: cs, d :: ds => if c = d then wordLe cs ds else decide (c < d)

/-- Python tuple comparison on `(conflicts, val1)` pairs, as used by
`values.sort()` in `order_domain_values` (generate.py:241). -/
def tupleLe (a b : Nat × Word) : Bool :=
  decide (a.1 < b.1) || (decide (a.1 = b.1) && wordLe a.2 b.2)

/-- The conflict count of one candidate `val1` of `var`
(generate.py:226-238): over each not-yet-assigned neighbour `n` and each
`val2` in `n`'s domain, count the pairs whose overlap characters differ. -/
def conflictCount (cw : Crossword) (doms : Doms) (asg : Asg)
    (var : Variable) (val1 : Word) : Nat :=
  (((neighbors cw var).filter (fun n => !assigned asg n)).map (fun n =>
    match cw.overlaps var n with
    | some (i, j) => (doms n).countP (fun val2 => decide (val1[i]? ≠ val2[j]?))
    | none => 0)).sum

/-- `order_domain_values(var, assignment)` (generate.py:213-245): pair each
candidate with its conflict count, sort the `(conflicts, val1)` tuples with
Python's stable `list.sort` (tuple order = numeric then lexicographic), and
keep the words. -/
def order_domain_values (cw : Crossword) (doms : Doms) (asg : Asg)
    (var : Variable) : List Word :=
  ((((doms var).map (fun val1 => (conflictCount cw doms asg var val1, val1))).mergeSort
    tupleLe).map Prod.snd)

/-- Python `if result:` on a value that is `None` or a dict: `None` and the
empty dict are falsy (generate.py:298). -/
def resultTruthy (r : Option Asg) : Bool :=
  match r with
  | none => false
  | some a => !a.isEmpty

/-- The `for val in self.domains[unassigned_var]` loop of `backtrack`
(generate.py:293-301), threading the domain store through each recursive
call (`recurse`).  `assignment[var] = val` appends the new entry at the end
of the dict order; `assignment.pop(var)` rolls it back, which the
per-iteration fresh `asg2` models. -/
def btLoop (cw : Crossword) (recurse : Doms → Asg → Option Asg × Doms)
    (asg : Asg) (var : Variable) : Doms → List Word → Option Asg × Doms
  | doms, [] => (none, doms)
  | doms, val :: rest =>
    let asg2 := asg ++ [(var, val)]
    if consistent cw asg2 then
      match recurse doms asg2 with
      | (r, doms1) =>
        if resultTruthy r then (r, doms1) else btLoop cw recurse asg var doms1 rest
    else btLoop cw recurse asg var doms rest

/-- `backtrack(assignment)` (generate.py:278-302), with explicit fuel
bounding the recursion depth (each recursive call assigns one more
unassigned variable, so `unassignedCount + 1` fuel never runs out; see
`unassignedCount`).  The domain store is threaded through so that the
read-only discipline of the search phase is a provable property rather
than a modelling assumption.  When `select_unassigned_variable` returns
`None`, Python would raise a `KeyError` on `self.domains[None]`; no
assignment is returned on that path, which `(none, doms)` models. -/
def backtrackFuel (cw : Crossword) : Nat → Doms → Asg → Option Asg × Doms
  | 0, doms, _ => (none, doms)
  | fuel + 1, doms, asg =>
    if assignment_complete cw asg then (some asg, doms)
    else
      match select_unassigned_variable cw doms asg with
      | none => (none, doms)
      | some var =>
        btLoop cw (fun d a => backtrackFuel cw fuel d a) asg var doms (doms var)

/-- Number of crossword variables not yet in the assignment; bounds the
depth of `backtrack`'s recursion. -/
def unassignedCount (cw : Crossword) (asg : Asg) : Nat :=
  (cw.vars.filter (fun v => !assigned asg v)).length

/-- `backtrack(assignment)` (generate.py:278-302). -/
def backtrack (cw : Crossword) (doms : Doms) (asg : Asg) : Option Asg × Doms :=
  backtrackFuel cw (unassignedCount cw asg + 1) doms asg

/-- A crossword with a single isolated slot (its overlap table is empty). -/
def oneVarCrossword (v : Variable) (ws : List Word) (hw : ws.Nodup) : Crossword where
  vars := [v]
  words := ws
  overlaps := fun _ _ => none
  vars_nodup := by simp
  words_nodup := hw
  overlaps_mem := by intro x y p h; exact Option.noConfusion h
  overlaps_irrefl := fun _ => rfl
  overlaps_symm := by intro x y i j h; exact Option.noConfusion h

/-- A crossword with two distinct slots crossing at a single cell, index `i`
of the first against index `j` of the second. -/
def twoVarCrossword (va vb : Variable) (i j : Nat) (ws : List Word)
    (hne : va ≠ vb) (hw : ws.Nodup) : Crossword where
  vars := [va, vb]
  words := ws
  overlaps := fun x y =>
    if x = va then (if y = vb then some (i, j) else none)
    else if x = vb then (if y = va then some (j, i) else none)
    else none
  vars_nodup := by simp [hne]
  words_nodup := hw
  overlaps_mem := by
    intro x y p h
    dsimp only at h
    by_cases hxa : x = va <;> by_cases hyb : y = vb <;>
      by_cases hxb : x = vb <;> by_cases hya : y = va <;> simp_all
  overlaps_irrefl := by
    intro x
    dsimp only
    by_cases hxa : x = va <;> by_cases hxb : x = vb <;> simp_all
  overlaps_symm := by
    intro x y i' j' h
    dsimp only at h ⊢
    by_cases hxa : x = va <;> by_cases hyb : y = vb <;>
      by_cases hxb : x = vb <;> by_cases hya : y = va <;> simp_all

def vA : Variable := ⟨0, 0, 3, Direction.across⟩

def vB : Variable := ⟨0, 0, 3, Direction.down⟩

def wcat : Word := ['c', 'a', 't']

def wcot : Word := ['c', 'o', 't']

def wdog : Word := ['d', 'o', 'g']

def wno : Word := ['n', 'o']

/-- Two length-3 slots crossing at their first cells, vocabulary
`{"cat", "cot"}` (solvable). -/
def cwAB : Crossword :=
  twoVarCrossword vA vB 0 0 [wcat, wcot] (by decide) (by decide)

/-- Two length-3 slots crossing at their first cells, vocabulary
`{"cat", "dog"}` (no valid cross). -/
def cwFail : Crossword :=
  twoVarCrossword vA vB 0 0 [wcat, wdog] (by decide) (by decide)

/-- A single isolated length-3 slot with vocabulary `{"cat"}`. -/
def cwOne : Crossword :=
  oneVarCrossword vA [wcat] (by decide)

/-- A single isolated length-3 slot with vocabulary `{"cat", "no"}`:
node consistency must remove `"no"`. -/
def cwMismatch : Crossword :=
  oneVarCrossword vA [wcat, wno] (by decide)

/-- Domains under which AC-3 propagation empties both domains of `cwFail`:
`"cat"` and `"dog"` disagree at the shared first cell. -/
def domsFail : Doms :=
  fun v => if v = vA then [wcat] else if v = vB then [wdog] else []

/-- Node-consistent domains for `cwAB`. -/
def domsAB : Doms :=
  fun v => if v = vA then [wcat] else if v = vB then [wcot, wdog] else []

/-- A domain store listing `"dog"` before `"cat"` for every variable. -/
def domsDogCat : Doms :=
  fun _ => [wdog, wcat]

/-- Arc-consistency of `x` with respect to `y`: every remaining candidate of
`x` has a supporting candidate in `y`'s domain (a different word agreeing at
the overlap). -/
def pairConsistent (cw : Crossword) (doms : Doms) (x y : Variable) : Prop :=
  ∀ i j, cw.overlaps x y = some (i, j) →
    ∀ v1 ∈ doms x, hasSupport i j (doms y) v1 = true

/-- The AC-3 work-list invariant: every overlapping ordered pair is either
still enqueued or already arc-consistent. -/
def arcInv (cw : Crossword) (doms : Doms) (arcs : List (Variable × Variable)) : Prop :=
  ∀ x y, (cw.overlaps x y).isSome → (x, y) ∈ arcs ∨ pairConsistent cw doms x y

theorem hasSupport_iff {i j : Nat} {dy : List Word} {v1 : Word} :
    hasSupport i j dy v1 = true ↔ ∃ v2 ∈ dy, v1 ≠ v2 ∧ v1[i]? = v2[j]? := by
  simp [hasSupport]

theorem revise_none {cw : Crossword} {doms : Doms} {x y : Variable}
    (h : cw.overlaps x y = none) : revise cw doms x y = (doms, false) := by
  simp [revise, h]

theorem revise_some {cw : Crossword} {doms : Doms} {x y : Variable} {i j : Nat}
    (h : cw.overlaps x y = some (i, j)) :
    revise cw doms x y =
      (Function.update doms x ((doms x).filter (hasSupport i j (doms y))),
       (doms x).any (fun v1 => !hasSupport i j (doms y) v1)) := by
  simp [revise, h]

theorem revise_false_fst {cw : Crossword} {doms : Doms} {x y : Variable}
    (h : (revise cw doms x y).2 = false) : (revise cw doms x y).1 = doms := by
  cases hov : cw.overlaps x y with
  | none => simp [revise_none hov]
  | some p =>
    obtain ⟨i, j⟩ := p
    rw [revise_some hov] at h ⊢
    have hall : ∀ v1 ∈ doms x, hasSupport i j (doms y) v1 = true := by
      intro v1 hv1
      by_contra hc
      have hone : (doms x).any (fun v1 => !hasSupport i j (doms y) v1) = true :=
        List.any_eq_true.mpr ⟨v1, hv1, by simpa using hc⟩
      simp [hone] at h
    simp only []
    rw [List.filter_eq_self.mpr hall, Function.update_eq_self]

theorem revise_true_overlap {cw : Crossword} {doms : Doms} {x y : Variable}
    (h : (revise cw doms x y).2 = true) : ∃ i j, cw.overlaps x y = some (i, j) := by
  cases hov : cw.overlaps x y with
  | none => rw [revise_none hov] at h; cases h
  | some p => exact ⟨p.1, p.2, rfl⟩

theorem ac3Loop_nil {cw : Crossword} {doms : Doms} : ac3Loop cw doms [] = (doms, true) := by
  rw [ac3Loop]

theorem ac3Loop_cons_true {cw : Crossword} {doms : Doms} {x y : Variable}
    {rest arcs2 : List (Variable × Variable)}
    (h : (revise cw doms x y).2 = true)
    (harcs : arcs2 =
      (((neighbors cw x).filter (fun z => decide (z ≠ y))).map (fun z => (z, x))) ++ rest) :
    ac3Loop cw doms ((x, y) :: rest) = ac3Loop cw (revise cw doms x y).1 arcs2 := by
  subst harcs
  rw [ac3Loop]
  simp [h, variableFalsy]

theorem ac3Loop_cons_false {cw : Crossword} {doms : Doms} {x y : Variable}
    {rest : List (Variable × Variable)}
    (h : (revise cw doms x y).2 = false) :
    ac3Loop cw doms ((x, y) :: rest) = ac3Loop cw (revise cw doms x y).1 rest := by
  rw [ac3Loop]
  simp [h]

/-- The loop of `ac3` can only ever answer `true`: the only `return False`
sits behind `if not x or not y`, and variables are always truthy. -/
theorem ac3Loop_snd_true (cw : Crossword) :
    ∀ doms arcs, (ac3Loop cw doms arcs).2 = true := by
  intro doms arcs
  induction doms, arcs using ac3Loop.induct cw with
  | case1 doms => rw [ac3Loop_nil]
  | case2 doms x y rest h hfalsy =>
    simp [variableFalsy] at hfalsy
  | case3 doms x y rest h hfalsy ih =>
    rw [ac3Loop_cons_true h rfl]
    exact ih
  | case4 doms x y rest h ih =>
    rw [ac3Loop_cons_false (by simpa using h)]
    exact ih

theorem pairConsistent_of_subset {cw : Crossword} {doms doms' : Doms} {a b : Variable}
    (ha : ∀ v1, v1 ∈ doms' a → v1 ∈ doms a) (hb : doms' b = doms b)
    (h : pairConsistent cw doms a b) : pairConsistent cw doms' a b := by
  intro i j hov v1 hv1
  rw [hb]
  exact h i j hov v1 (ha v1 hv1)

theorem arcInv_step_true {cw : Crossword} {doms : Doms} {x y : Variable}
    {rest : List (Variable × Variable)}
    (h : (revise cw doms x y).2 = true)
    (hinv : arcInv cw doms ((x, y) :: rest)) :
    arcInv cw (revise cw doms x y).1
      ((((neighbors cw x).filter (fun z => decide (z ≠ y))).map (fun z => (z, x))) ++ rest) := by
  obtain ⟨i0, j0, hov⟩ := revise_true_overlap h
  have hxy : x ≠ y := by
    rintro rfl
    rw [cw.overlaps_irrefl] at hov
    cases hov
  have hfst : (revise cw doms x y).1 =
      Function.update doms x ((doms x).filter (hasSupport i0 j0 (doms y))) := by
    rw [revise_some hov]
  have hDx : (revise cw doms x y).1 x = (doms x).filter (hasSupport i0 j0 (doms y)) := by
    rw [hfst, Function.update_same]
  have hDz : ∀ z, z ≠ x → (revise cw doms x y).1 z = doms z := by
    intro z hz
    rw [hfst, Function.update_noteq hz]
  intro a b hab
  obtain ⟨⟨i, j⟩, hab'⟩ := Option.isSome_iff_exists.mp hab
  have hav : a ∈ cw.vars := (cw.overlaps_mem a b _ hab').1
  have hanb : a ≠ b := by
    rintro rfl
    rw [cw.overlaps_irrefl] at hab'
    cases hab'
  by_cases hbx : b = x
  · by_cases hay : a = y
    · -- the skipped arc (y, x): the classical symmetric-support argument
      rcases hinv a b hab with hmem | hcons
      · rcases List.mem_cons.mp hmem with hhd | htl
        · injection hhd with ha hb
          exact absurd (ha.symm.trans hay) hxy
        · exact Or.inl (List.mem_append_right _ htl)
      · right
        intro i' j' hov' v1 hv1
        have hax : a ≠ x := fun hc => hxy (hc.symm.trans hay)
        rw [hDz a hax] at hv1
        have hyx : cw.overlaps a b = some (j0, i0) := by
          rw [hay, hbx]
          exact cw.overlaps_symm x y i0 j0 hov
        rw [hov'] at hyx
        injection hyx with hp
        have h1 : i' = j0 := congrArg Prod.fst hp
        have h2 : j' = i0 := congrArg Prod.snd hp
        have hsup := hcons i' j' hov' v1 hv1
        rcases hasSupport_iff.mp hsup with ⟨v2, hv2, hne, hch⟩
        refine hasSupport_iff.mpr ⟨v2, ?_, hne, hch⟩
        rw [hbx, hDx]
        refine List.mem_filter.mpr ⟨hbx ▸ hv2, ?_⟩
        refine hasSupport_iff.mpr ⟨v1, hay ▸ hv1, fun hq => hne hq.symm, ?_⟩
        rw [h1] at hch
        rw [h2] at hch
        exact hch.symm
    · -- a is a re-enqueued neighbour of x
      left
      refine List.mem_append_left _ ?_
      refine List.mem_map.mpr ⟨a, ?_, by rw [hbx]⟩
      refine List.mem_filter.mpr ⟨?_, by simpa using hay⟩
      unfold neighbors
      refine List.mem_filter.mpr ⟨hav, ?_⟩
      have hax : a ≠ x := fun hc => hanb (hc.trans hbx.symm)
      have : cw.overlaps a x = some (i, j) := hbx ▸ hab'
      simp [hax, this]
  · rcases hinv a b hab with hmem | hcons
    · rcases List.mem_cons.mp hmem with hhd | htl
      · -- (a, b) = (x, y): just revised, hence now consistent
        injection hhd with ha hb
        right
        intro i' j' hov' v1 hv1
        rw [ha, hDx] at hv1
        have hsupp := (List.mem_filter.mp hv1).2
        rw [ha, hb, hov] at hov'
        injection hov' with hp
        have h1 : i0 = i' := congrArg Prod.fst hp
        have h2 : j0 = j' := congrArg Prod.snd hp
        rw [hb, hDz y hxy.symm]
        rw [← h1, ← h2]
        exact hsupp
      · exact Or.inl (List.mem_append_right _ htl)
    · right
      refine pairConsistent_of_subset ?_ (hDz b hbx) hcons
      intro v1 hv1
      by_cases hax : a = x
      · rw [hax] at hv1 ⊢
        rw [hDx] at hv1
        exact (List.mem_filter.mp hv1).1
      · rwa [hDz a hax] at hv1

theorem arcInv_step_false {cw : Crossword} {doms : Doms} {x y : Variable}
    {rest : List (Variable × Variable)}
    (h : (revise cw doms x y).2 = false)
    (hinv : arcInv cw doms ((x, y) :: rest)) :
    arcInv cw (revise cw doms x y).1 rest := by
  rw [revise_false_fst h]
  intro a b hab
  rcases hinv a b hab with hmem | hcons
  · rcases List.mem_cons.mp hmem with hhd | htl
    · injection hhd with ha hb
      right
      intro i j hov v1 hv1
      rw [ha, hb] at hov
      rw [revise_some hov] at h
      rw [ha] at hv1
      rw [hb]
      by_contra hc
      have hone : (doms x).any (fun w => !hasSupport i j (doms y) w) = true :=
        List.any_eq_true.mpr ⟨v1, hv1, by simpa using hc⟩
      simp [hone] at h
    · exact Or.inl htl
  · exact Or.inr hcons

theorem ac3Loop_sound (cw : Crossword) :
    ∀ doms arcs, arcInv cw doms arcs →
      ∀ x y, pairConsistent cw (ac3Loop cw doms arcs).1 x y := by
  intro doms arcs
  induction doms, arcs using ac3Loop.induct cw with
  | case1 doms =>
    intro hinv x y
    rw [ac3Loop_nil]
    intro i j hov v1 hv1
    rcases hinv x y (by simp [hov]) with hmem | hcons
    · cases hmem
    · exact hcons i j hov v1 hv1
  | case2 doms x y rest h hfalsy =>
    simp [variableFalsy] at hfalsy
  | case3 doms x y rest h hfalsy ih =>
    intro hinv a b
    rw [ac3Loop_cons_true h rfl]
    exact ih (arcInv_step_true h hinv) a b
  | case4 doms x y rest h ih =>
    intro hinv a b
    have h' : (revise cw doms x y).2 = false := by simpa using h
    rw [ac3Loop_cons_false h']
    exact ih (arcInv_step_false h' hinv) a b

theorem arcInv_allArcs (cw : Crossword) (doms : Doms) :
    arcInv cw doms (allArcs cw) := by
  intro a b hab
  left
  obtain ⟨⟨i, j⟩, hab'⟩ := Option.isSome_iff_exists.mp hab
  have hmem := cw.overlaps_mem a b _ hab'
  have hne : a ≠ b := by
    rintro rfl
    rw [cw.overlaps_irrefl] at hab'
    cases hab'
  unfold allArcs
  refine List.mem_filter.mpr ⟨?_, by simpa using hne⟩
  exact List.mem_flatMap.mpr ⟨a, hmem.1, List.mem_map.mpr ⟨b, hmem.2, rfl⟩⟩

/-- C2: for every crossword instance, whenever `ac3` (called with the
default arc list) returns `true`, the resulting domains are arc-consistent:
for every pair of overlapping variables `(x, y)` and every word `v1`
remaining in the domain of `x`, there is a word `v2` in the domain of `y`
with `v1 ≠ v2` and `v1[i] == v2[j]` at the overlap indices `(i, j)`. -/
theorem ac3_soundness (cw : Crossword) (doms : Doms)
    (h : (ac3 cw doms none).2 = true) :
    ∀ x y i j, cw.overlaps x y = some (i, j) →
      ∀ v1 ∈ (ac3 cw doms none).1 x, ∃ v2 ∈ (ac3 cw doms none).1 y,
        v1 ≠ v2 ∧ v1[i]? = v2[j]? := by
  intro x y i j hov v1 hv1
  have hmain :=
    ac3Loop_sound cw doms (allArcs cw) (arcInv_allArcs cw doms) x y i j hov v1 hv1
  exact hasSupport_iff.mp hmain

/-- Witness for `ac3_soundness`: the two crossing slots of `cwAB` with their
node-consistent domains. -/
theorem ac3_soundness_witness :
    (ac3 cwAB domsAB none).2 = true ∧
    (∀ x y i j, cwAB.overlaps x y = some (i, j) →
      ∀ v1 ∈ (ac3 cwAB domsAB none).1 x, ∃ v2 ∈ (ac3 cwAB domsAB none).1 y,
        v1 ≠ v2 ∧ v1[i]? = v2[j]?) :=
  ⟨ac3Loop_snd_true cwAB domsAB (allArcs cwAB),
   ac3_soundness cwAB domsAB (ac3Loop_snd_true cwAB domsAB (allArcs cwAB))⟩

/-- C1 (code-bug evidence): `ac3` reports `true` even though propagation
emptied both domains of `cwFail`.  The emptiness test `if not x or not y`
inspects the (always truthy) variables, so the `return False` at
generate.py:154 is unreachable — contradicting the docstring
(generate.py:140-141) and the claim. -/
theorem ac3_true_despite_empty_domain :
    (ac3 cwFail domsFail none).2 = true ∧
    (ac3 cwFail domsFail none).1 vA = [] ∧
    (ac3 cwFail domsFail none).1 vB = [] := by
  have e0 : ac3 cwFail domsFail none = ac3Loop cwFail domsFail [(vA, vB), (vB, vA)] := by
    show ac3Loop cwFail domsFail (allArcs cwFail) = _
    rw [show allArcs cwFail = [(vA, vB), (vB, vA)] from by decide]
  have e1 : ac3Loop cwFail domsFail [(vA, vB), (vB, vA)] =
      ac3Loop cwFail (revise cwFail domsFail vA vB).1 [(vB, vA)] :=
    ac3Loop_cons_true (by decide) (by decide)
  have e2 : ac3Loop cwFail (revise cwFail domsFail vA vB).1 [(vB, vA)] =
      ac3Loop cwFail (revise cwFail (revise cwFail domsFail vA vB).1 vB vA).1 [] :=
    ac3Loop_cons_true (by decide) (by decide)
  refine ⟨ac3Loop_snd_true cwFail domsFail (allArcs cwFail), ?_, ?_⟩
  · rw [e0, e1, e2, ac3Loop_nil]
    decide
  · rw [e0, e1, e2, ac3Loop_nil]
    decide

/-- C10: calling `ac3` with an explicitly empty arc list produces exactly
the same final domains and return value as calling it with no argument:
Python's `if not arcs:` treats `[]` like `None` and rebuilds the default
all-ordered-pairs work list. -/
theorem ac3_empty_arcs_eq_default (cw : Crossword) (doms : Doms) :
    ac3 cw doms (some []) = ac3 cw doms none := rfl

/-- C3: for distinct variables `x`, `y`: if they overlap at `(i, j)`,
`revise(x, y)` keeps in `domain(x)` exactly the candidates `v1` for which
some `v2` in `domain(y)` satisfies `v1 ≠ v2` and `v1[i] == v2[j]`, leaves
every other domain — in particular `domain(y)` — unchanged, and returns
`true` iff at least one candidate was removed from `domain(x)`; if they do
not overlap, it removes nothing and returns `false`. -/
theorem revise_spec (cw : Crossword) (doms : Doms) (x y : Variable) (hxy : x ≠ y) :
    (∀ i j, cw.overlaps x y = some (i, j) →
      (∀ v1, v1 ∈ (revise cw doms x y).1 x ↔
        v1 ∈ doms x ∧ ∃ v2 ∈ doms y, v1 ≠ v2 ∧ v1[i]? = v2[j]?) ∧
      (∀ z, z ≠ x → (revise cw doms x y).1 z = doms z) ∧
      (revise cw doms x y).1 y = doms y ∧
      ((revise cw doms x y).2 = true ↔ ∃ v1 ∈ doms x, v1 ∉ (revise cw doms x y).1 x)) ∧
    (cw.overlaps x y = none → revise cw doms x y = (doms, false)) := by
  constructor
  · intro i j hov
    have hpair := @revise_some cw doms x y i j hov
    have hDx : (revise cw doms x y).1 x = (doms x).filter (hasSupport i j (doms y)) := by
      rw [hpair]
      exact Function.update_same _ _ _
    have hDz : ∀ z, z ≠ x → (revise cw doms x y).1 z = doms z := by
      intro z hz
      rw [hpair]
      exact Function.update_noteq hz _ _
    refine ⟨?_, hDz, hDz y (Ne.symm hxy), ?_⟩
    · intro v1
      rw [hDx, List.mem_filter, hasSupport_iff]
    · constructor
      · intro hflag
        rw [hpair] at hflag
        rcases List.any_eq_true.mp hflag with ⟨v1, hv1, hbad⟩
        have hnosup : hasSupport i j (doms y) v1 = false := by simpa using hbad
        refine ⟨v1, hv1, ?_⟩
        rw [hDx]
        intro hmem
        have hsup := (List.mem_filter.mp hmem).2
        rw [hsup] at hnosup
        cases hnosup
      · rintro ⟨v1, hv1, hnot⟩
        rw [hpair]
        show (doms x).any (fun w => !hasSupport i j (doms y) w) = true
        refine List.any_eq_true.mpr ⟨v1, hv1, ?_⟩
        rw [hDx] at hnot
        by_contra hb
        have hsup : hasSupport i j (doms y) v1 = true := by simpa using hb
        exact hnot (List.mem_filter.mpr ⟨hv1, hsup⟩)
  · intro hov
    exact revise_none hov

/-- Witness for `revise_spec`: revising `vB` against `vA` in `cwAB`. -/
theorem revise_spec_witness :
    vB ≠ vA ∧
    ((∀ i j, cwAB.overlaps vB vA = some (i, j) →
      (∀ v1, v1 ∈ (revise cwAB domsAB vB vA).1 vB ↔
        v1 ∈ domsAB vB ∧ ∃ v2 ∈ domsAB vA, v1 ≠ v2 ∧ v1[i]? = v2[j]?) ∧
      (∀ z, z ≠ vB → (revise cwAB domsAB vB vA).1 z = domsAB z) ∧
      (revise cwAB domsAB vB vA).1 vA = domsAB vA ∧
      ((revise cwAB domsAB vB vA).2 = true ↔
        ∃ v1 ∈ domsAB vB, v1 ∉ (revise cwAB domsAB vB vA).1 vB)) ∧
    (cwAB.overlaps vB vA = none → revise cwAB domsAB vB vA = (domsAB, false))) :=
  ⟨by decide, revise_spec cwAB domsAB vB vA (by decide)⟩

theorem encVarFold_eq (L : Nat) :
    ∀ (ws d : List Word), ws.Nodup → d.Nodup →
      (∀ x ∈ ws, x.length ≠ L → x ∈ d) →
      encVarFold L ws d =
        some (d.filter (fun w => !(decide (w ∈ ws) && decide (w.length ≠ L)))) := by
  intro ws
  induction ws with
  | nil =>
    intro d _ _ _
    simp [encVarFold]
  | cons x ws' ih =>
    intro d hnd hd hmem
    by_cases hxL : x.length = L
    · have hstep : encVarFold L (x :: ws') d = encVarFold L ws' d := by
        simp [encVarFold, hxL]
      rw [hstep, ih d (List.Nodup.of_cons hnd) hd
        (fun y hy hyL => hmem y (List.mem_cons_of_mem x hy) hyL)]
      refine congrArg some (List.filter_congr ?_)
      intro w _
      by_cases hwx : w = x
      · subst hwx
        simp [hxL]
      · simp [List.mem_cons, hwx]
    · have hx_d : x ∈ d := hmem x (List.mem_cons_self x ws') hxL
      have hstep : encVarFold L (x :: ws') d = encVarFold L ws' (d.erase x) := by
        simp [encVarFold, setRemove, hxL, hx_d]
      have hxnot : x ∉ ws' := (List.nodup_cons.mp hnd).1
      rw [hstep, ih (d.erase x) (List.Nodup.of_cons hnd) (hd.erase x)
        (fun y hy hyL => (List.mem_erase_of_ne (fun hyx : y = x => hxnot (hyx ▸ hy))).mpr
          (hmem y (List.mem_cons_of_mem x hy) hyL))]
      refine congrArg some ?_
      rw [hd.erase_eq_filter, List.filter_filter]
      refine (List.filter_congr ?_).symm
      intro w _
      by_cases hwx : w = x
      · subst hwx
        simp [hxL]
      · simp [List.mem_cons, hwx]

theorem encVarFold_id (L : Nat) :
    ∀ (ws : List Word) (d : List Word),
      (∀ x ∈ ws, x.length = L) → encVarFold L ws d = some d := by
  intro ws
  induction ws with
  | nil => intro d _; simp [encVarFold]
  | cons x ws' ih =>
    intro d hall
    have hxL : x.length = L := hall x (List.mem_cons_self x ws')
    have hstep : encVarFold L (x :: ws') d = encVarFold L ws' d := by
      simp [encVarFold, hxL]
    rw [hstep]
    exact ih d (fun y hy => hall y (List.mem_cons_of_mem x hy))

theorem encVarFold_none (L : Nat) :
    ∀ (ws : List Word) (d : List Word),
      (∀ w ∈ d, w.length = L) → (∃ x ∈ ws, x.length ≠ L) →
      encVarFold L ws d = none := by
  intro ws
  induction ws with
  | nil =>
    intro d _ hbad
    simp at hbad
  | cons x ws' ih =>
    intro d hd hbad
    by_cases hxL : x.length = L
    · have hstep : encVarFold L (x :: ws') d = encVarFold L ws' d := by
        simp [encVarFold, hxL]
      rw [hstep]
      rcases hbad with ⟨z, hz, hzL⟩
      rcases List.mem_cons.mp hz with hzx | hz'
      · exact absurd (hzx ▸ hzL) (by simpa using hxL)
      · exact ih d hd ⟨z, hz', hzL⟩
    · have hx_d : x ∉ d := fun hx => hxL (hd x hx)
      simp [encVarFold, setRemove, hxL, hx_d]

theorem enforce_fold_some (cw : Crossword) :
    ∀ (l : List Variable) (ds : Doms), l.Nodup →
      (∀ var ∈ l, (ds var).Nodup ∧ (∀ x ∈ cw.words, x.length ≠ var.length → x ∈ ds var)) →
      ∃ d, (l.foldlM (fun ds var => (encVarFold var.length cw.words (ds var)).map
              (fun d => Function.update ds var d)) ds) = some d ∧
        (∀ v ∈ l, d v = (ds v).filter
          (fun w => !(decide (w ∈ cw.words) && decide (w.length ≠ v.length)))) ∧
        (∀ v, v ∉ l → d v = ds v) := by
  intro l
  induction l with
  | nil =>
    intro ds _ _
    exact ⟨ds, rfl, by simp, fun v _ => rfl⟩
  | cons var l' ih =>
    intro ds hnd hinv
    have hvar := hinv var (List.mem_cons_self var l')
    have hstep := encVarFold_eq var.length cw.words (ds var) cw.words_nodup hvar.1 hvar.2
    have hnot : var ∉ l' := (List.nodup_cons.mp hnd).1
    set flt := (ds var).filter
      (fun w => !(decide (w ∈ cw.words) && decide (w.length ≠ var.length))) with hflt
    set ds' := Function.update ds var flt with hds'
    have hds'_eq : ∀ v, v ≠ var → ds' v = ds v := by
      intro v hv
      rw [hds']
      exact Function.update_noteq hv _ _
    have hinv' : ∀ v ∈ l', (ds' v).Nodup ∧
        (∀ x ∈ cw.words, x.length ≠ v.length → x ∈ ds' v) := by
      intro v hv
      rw [hds'_eq v (fun hc => hnot (hc ▸ hv))]
      exact hinv v (List.mem_cons_of_mem var hv)
    obtain ⟨d, hfold, hin, hout⟩ := ih ds' (List.Nodup.of_cons hnd) hinv'
    refine ⟨d, ?_, ?_, ?_⟩
    · rw [List.foldlM_cons, hstep]
      simpa using hfold
    · intro v hv
      rcases List.mem_cons.mp hv with hvv | hv'
      · rw [hvv, hout var hnot, hds', Function.update_same]
      · rw [hin v hv', hds'_eq v (fun hc => hnot (hc ▸ hv'))]
    · intro v hv
      rw [hout v (fun hc => hv (List.mem_cons_of_mem var hc)),
        hds'_eq v (fun hc => hv (hc ▸ List.mem_cons_self var l'))]

theorem enforce_fold_id (cw : Crossword) :
    ∀ (l : List Variable) (ds : Doms),
      (∀ var ∈ l, ∀ x ∈ cw.words, x.length = var.length) →
      (l.foldlM (fun ds var => (encVarFold var.length cw.words (ds var)).map
          (fun d => Function.update ds var d)) ds) = some ds := by
  intro l
  induction l with
  | nil => intro ds _; rfl
  | cons var l' ih =>
    intro ds hall
    rw [List.foldlM_cons,
      encVarFold_id var.length cw.words (ds var) (hall var (List.mem_cons_self var l'))]
    simpa [Function.update_eq_self] using
      ih ds (fun v hv => hall v (List.mem_cons_of_mem var hv))

theorem enforce_fold_none (cw : Crossword) :
    ∀ (l : List Variable) (ds : Doms),
      (∀ var ∈ l, ∀ w ∈ ds var, w.length = var.length) →
      (∃ var ∈ l, ∃ x ∈ cw.words, x.length ≠ var.length) →
      (l.foldlM (fun ds var => (encVarFold var.length cw.words (ds var)).map
          (fun d => Function.update ds var d)) ds) = none := by
  intro l
  induction l with
  | nil =>
    intro ds _ hbad
    simp at hbad
  | cons var l' ih =>
    intro ds hinv hbad
    by_cases hgood : ∀ x ∈ cw.words, x.length = var.length
    · rw [List.foldlM_cons, encVarFold_id var.length cw.words (ds var) hgood]
      have hbad' : ∃ v ∈ l', ∃ x ∈ cw.words, x.length ≠ v.length := by
        rcases hbad with ⟨v, hv, z, hz, hzL⟩
        rcases List.mem_cons.mp hv with hvv | hv'
        · exact absurd (hgood z hz) (by rw [hvv] at hzL; exact hzL)
        · exact ⟨v, hv', z, hz, hzL⟩
      simpa [Function.update_eq_self] using
        ih ds (fun v hv => hinv v (List.mem_cons_of_mem var hv)) hbad'
    · push_neg at hgood
      rw [List.foldlM_cons,
        encVarFold_none var.length cw.words (ds var)
          (hinv var (List.mem_cons_self var l')) hgood]
      rfl

/-- C6 (amended): one application of `enforce_node_consistency` to the
initial full domains succeeds and leaves, for each variable, exactly the
vocabulary words of matching length (possibly none — not an error); but a
second application succeeds (and then returns the same domains) **iff** the
first removed nothing, i.e. every vocabulary word's length matches every
variable's length; otherwise the second application hits `set.remove` on an
already-removed word and raises `KeyError`. -/
theorem enforce_node_consistency_spec (cw : Crossword) :
    ∃ d, enforce_node_consistency cw (initialDoms cw) = some d ∧
      (∀ var ∈ cw.vars, d var = cw.words.filter (fun w => decide (w.length = var.length))) ∧
      ((enforce_node_consistency cw d).isSome = true ↔
        ∀ var ∈ cw.vars, ∀ w ∈ cw.words, w.length = var.length) ∧
      ((∀ var ∈ cw.vars, ∀ w ∈ cw.words, w.length = var.length) →
        enforce_node_consistency cw d = some d) := by
  obtain ⟨d, hfold, hin, hout⟩ := enforce_fold_some cw cw.vars (initialDoms cw)
    cw.vars_nodup (fun var _ => ⟨cw.words_nodup, fun x hx _ => hx⟩)
  have hin' : ∀ var ∈ cw.vars,
      d var = cw.words.filter (fun w => decide (w.length = var.length)) := by
    intro var hvar
    rw [hin var hvar]
    show cw.words.filter _ = _
    refine List.filter_congr ?_
    intro w hw
    simp [hw, decide_not]
  have hdmatch : ∀ var ∈ cw.vars, ∀ w ∈ d var, w.length = var.length := by
    intro var hvar w hw
    rw [hin' var hvar] at hw
    simpa using (List.mem_filter.mp hw).2
  refine ⟨d, hfold, hin', ?_, ?_⟩
  · constructor
    · intro hsome
      by_contra hbad
      push_neg at hbad
      rw [show enforce_node_consistency cw d = none from
        enforce_fold_none cw cw.vars d hdmatch hbad] at hsome
      simp at hsome
    · intro hgood
      rw [show enforce_node_consistency cw d = some d from
        enforce_fold_id cw cw.vars d hgood]
      rfl
  · intro hgood
    exact enforce_fold_id cw cw.vars d hgood

/-- C6 (counterexample): on `cwMismatch` the first application of
`enforce_node_consistency` succeeds, but the second raises `KeyError`
(returns `none`) instead of succeeding with the same domains. -/
theorem enforce_node_consistency_twice_fails :
    (enforce_node_consistency cwMismatch (initialDoms cwMismatch)).isSome = true ∧
    ((enforce_node_consistency cwMismatch (initialDoms cwMismatch)).bind
      (enforce_node_consistency cwMismatch)).isNone = true := by
  decide

theorem neighborsOk_iff {cw : Crossword} {asg : Asg} {v : Variable} {w : Word} :
    neighborsOk cw asg v w = true ↔
      ∀ n ∈ neighbors cw v, ∀ wn, asg.lookup n = some wn →
        ∀ i j, cw.overlaps v n = some (i, j) → w[i]? = wn[j]? := by
  unfold neighborsOk
  rw [List.all_eq_true]
  constructor
  · intro h n hn wn hwn i j hov
    have hx := h n hn
    rw [hwn, hov] at hx
    simpa using hx
  · intro h n hn
    cases hwn : asg.lookup n with
    | none => rfl
    | some wn =>
      cases hov : cw.overlaps v n with
      | none => rfl
      | some p =>
        simpa using h n hn wn hwn p.1 p.2 hov

theorem consistentAux_iff (cw : Crossword) (asg : Asg) :
    ∀ (rest : List (Variable × Word)) (seen : List Word),
      consistentAux cw asg rest seen = true ↔
        ((∀ p ∈ rest, p.2 ≠ [] →
            p.2.length = p.1.length ∧ p.2 ∉ seen ∧ neighborsOk cw asg p.1 p.2 = true) ∧
         rest.Pairwise (fun p q => p.2 ≠ [] → q.2 ≠ [] → p.2 ≠ q.2)) := by
  intro rest
  induction rest with
  | nil =>
    intro seen
    simp [consistentAux]
  | cons pr rest ih =>
    obtain ⟨v, w⟩ := pr
    intro seen
    by_cases hw : w.isEmpty
    · have hwe : w = [] := List.isEmpty_iff.mp hw
      rw [show consistentAux cw asg ((v, w) :: rest) seen = consistentAux cw asg rest seen
        from by simp [consistentAux, hw]]
      rw [ih seen]
      constructor
      · rintro ⟨h1, h2⟩
        refine ⟨?_, ?_⟩
        · intro p hp hpe
          rcases List.mem_cons.mp hp with hpv | hp'
          · rw [hpv] at hpe
            exact absurd hwe hpe
          · exact h1 p hp' hpe
        · refine List.Pairwise.cons ?_ h2
          intro q _ h1' _
          exact absurd hwe h1'
      · rintro ⟨h1, h2⟩
        exact ⟨fun p hp hpe => h1 p (List.mem_cons_of_mem _ hp) hpe, h2.of_cons⟩
    · have hwe : w ≠ [] := fun hc => by simp [hc] at hw
      by_cases hlen : w.length = v.length
      · by_cases hseen : w ∈ seen
        · rw [show consistentAux cw asg ((v, w) :: rest) seen = false from by
            simp [consistentAux, hw, hlen, hseen]]
          simp only [Bool.false_eq_true, false_iff]
          rintro ⟨h1, -⟩
          exact absurd hseen ((h1 (v, w) (List.mem_cons_self _ _) hwe).2.1)
        · by_cases hok : neighborsOk cw asg v w = true
          · rw [show consistentAux cw asg ((v, w) :: rest) seen =
                consistentAux cw asg rest (w :: seen) from by
              simp [consistentAux, hw, hlen, hseen, hok]]
            rw [ih (w :: seen)]
            constructor
            · rintro ⟨h1, h2⟩
              refine ⟨?_, ?_⟩
              · intro p hp hpe
                rcases List.mem_cons.mp hp with hpv | hp'
                · rw [hpv]
                  exact ⟨hlen, hseen, hok⟩
                · obtain ⟨ha, hb, hc⟩ := h1 p hp' hpe
                  exact ⟨ha, fun hm => hb (List.mem_cons_of_mem _ hm), hc⟩
              · refine List.Pairwise.cons ?_ h2
                intro q hq _ h2'
                intro hcq
                exact (h1 q hq h2').2.1 (hcq ▸ List.mem_cons_self w seen)
            · rintro ⟨h1, h2⟩
              refine ⟨?_, h2.of_cons⟩
              intro p hp hpe
              obtain ⟨ha, hb, hc⟩ := h1 p (List.mem_cons_of_mem _ hp) hpe
              refine ⟨ha, ?_, hc⟩
              intro hm
              rcases List.mem_cons.mp hm with hpw | hp2
              · exact ((List.pairwise_cons.mp h2).1 p hp hwe hpe) hpw.symm
              · exact hb hp2
          · rw [show consistentAux cw asg ((v, w) :: rest) seen = false from by
              simp [consistentAux, hw, hlen, hseen, hok]]
            simp only [Bool.false_eq_true, false_iff]
            rintro ⟨h1, -⟩
            exact absurd ((h1 (v, w) (List.mem_cons_self _ _) hwe).2.2) hok
      · rw [show consistentAux cw asg ((v, w) :: rest) seen = false from by
          simp [consistentAux, hw, hlen]]
        simp only [Bool.false_eq_true, false_iff]
        rintro ⟨h1, -⟩
        exact absurd ((h1 (v, w) (List.mem_cons_self _ _) hwe).1) hlen

theorem consistent_iff (cw : Crossword) (asg : Asg) :
    consistent cw asg = true ↔
      ((∀ p ∈ asg, p.2 ≠ [] →
          p.2.length = p.1.length ∧ neighborsOk cw asg p.1 p.2 = true) ∧
       asg.Pairwise (fun p q => p.2 ≠ [] → q.2 ≠ [] → p.2 ≠ q.2)) := by
  rw [show consistent cw asg = consistentAux cw asg asg [] from rfl,
    consistentAux_iff cw asg asg []]
  constructor
  · rintro ⟨h1, h2⟩
    exact ⟨fun p hp hpe => ⟨(h1 p hp hpe).1, (h1 p hp hpe).2.2⟩, h2⟩
  · rintro ⟨h1, h2⟩
    exact ⟨fun p hp hpe => ⟨(h1 p hp hpe).1, by simp, (h1 p hp hpe).2⟩, h2⟩

/-- C5 (counterexample): `consistent` does **not** apply the length check to
the empty word: the guard `if not assignment[selected_variable]: continue`
(generate.py:189-190) skips falsy words entirely, so an assignment mapping
the length-3 slot `vA` to the empty word is accepted although `0 ≠ 3`. -/
theorem consistent_empty_word_accepted :
    consistent cwOne [(vA, ([] : Word))] = true ∧ ([] : Word).length ≠ vA.length := by
  decide

/-- C5 (amended): for a partial assignment with unique keys, `consistent`
returns `true` iff every variable assigned a **non-empty** word has a word
of its own length, duplicating no other assigned variable's word, and
agreeing with every assigned neighbour's word at the overlap indices;
variables assigned the empty (falsy) word are skipped like unassigned ones,
so in particular the length check does not apply to the empty word. -/
theorem consistent_spec (cw : Crossword) (asg : Asg)
    (hnd : (asg.map Prod.fst).Nodup) :
    consistent cw asg = true ↔
      ∀ p ∈ asg, p.2 ≠ [] →
        p.2.length = p.1.length ∧
        (∀ q ∈ asg, q.1 ≠ p.1 → q.2 ≠ p.2) ∧
        (∀ n ∈ neighbors cw p.1, ∀ wn, asg.lookup n = some wn →
          ∀ i j, cw.overlaps p.1 n = some (i, j) → p.2[i]? = wn[j]?) := by
  rw [consistent_iff]
  have hsymm : Symmetric (fun p q : Variable × Word => p.2 ≠ [] → q.2 ≠ [] → p.2 ≠ q.2) :=
    fun p q hpq hq hp => Ne.symm (hpq hp hq)
  constructor
  · rintro ⟨h1, h2⟩ p hp hpe
    refine ⟨(h1 p hp hpe).1, ?_, neighborsOk_iff.mp (h1 p hp hpe).2⟩
    intro q hq hqk
    by_cases hqe : q.2 = []
    · rw [hqe]
      exact Ne.symm hpe
    · have hne : q ≠ p := fun hc => hqk (congrArg Prod.fst hc)
      exact h2.forall hsymm hq hp hne hqe hpe
  · intro h
    refine ⟨?_, ?_⟩
    · intro p hp hpe
      exact ⟨(h p hp hpe).1, neighborsOk_iff.mpr (h p hp hpe).2.2⟩
    · refine (List.Nodup.of_map Prod.fst hnd).pairwise_of_forall_ne ?_
      intro a ha b hb hab
      intro hae hbe
      have hkeys : a.1 ≠ b.1 := fun hk =>
        hab (List.inj_on_of_nodup_map hnd ha hb hk)
      exact (h b hb hbe).2.1 a ha hkeys
  
/-- Witness for `consistent_spec`: the singleton assignment of `"cat"` to
the isolated slot of `cwOne`. -/
theorem consistent_spec_witness :
    (([(vA, wcat)] : Asg).map Prod.fst).Nodup ∧
    (consistent cwOne [(vA, wcat)] = true ↔
      ∀ p ∈ ([(vA, wcat)] : Asg), p.2 ≠ [] →
        p.2.length = p.1.length ∧
        (∀ q ∈ ([(vA, wcat)] : Asg), q.1 ≠ p.1 → q.2 ≠ p.2) ∧
        (∀ n ∈ neighbors cwOne p.1, ∀ wn, ([(vA, wcat)] : Asg).lookup n = some wn →
          ∀ i j, cwOne.overlaps p.1 n = some (i, j) → p.2[i]? = wn[j]?)) :=
  ⟨by decide, consistent_spec cwOne [(vA, wcat)] (by decide)⟩

theorem selFold_some (cw : Crossword) (doms : Doms) (asg : Asg) :
    ∀ (l : List Variable) (c0 : Variable), assigned asg c0 = false →
      ∃ c, l.foldl (selStep cw doms asg) (some c0) = some c ∧
        assigned asg c = false ∧
        (c = c0 ∨ c ∈ l) ∧
        (doms c).length ≤ (doms c0).length ∧
        (∀ v ∈ l, assigned asg v = false → (doms c).length ≤ (doms v).length) ∧
        ((doms c).length = (doms c0).length →
          (neighbors cw c0).length ≤ (neighbors cw c).length) ∧
        (∀ v ∈ l, assigned asg v = false → (doms v).length = (doms c).length →
          (neighbors cw v).length ≤ (neighbors cw c).length) := by
  intro l
  induction l with
  | nil =>
    intro c0 hc0
    exact ⟨c0, rfl, hc0, Or.inl rfl, le_refl _, by simp, fun _ => le_refl _, by simp⟩
  | cons v l' ih =>
    intro c0 hc0
    rw [List.foldl_cons]
    by_cases hv : assigned asg v = true
    · have hstep : selStep cw doms asg (some c0) v = some c0 := by
        simp [selStep, hv]
      rw [hstep]
      obtain ⟨c, hfold, hcu, hmem, hle, hmin, htie0, hties⟩ := ih c0 hc0
      refine ⟨c, hfold, hcu, ?_, hle, ?_, htie0, ?_⟩
      · rcases hmem with hc | hc
        · exact Or.inl hc
        · exact Or.inr (List.mem_cons_of_mem v hc)
      · intro u hu huu
        rcases List.mem_cons.mp hu with huv | hu'
        · rw [huv] at huu
          rw [huu] at hv
          cases hv
        · exact hmin u hu' huu
      · intro u hu huu hutie
        rcases List.mem_cons.mp hu with huv | hu'
        · rw [huv] at huu
          rw [huu] at hv
          cases hv
        · exact hties u hu' huu hutie
    · have hvu : assigned asg v = false := by
        cases hb : assigned asg v
        · rfl
        · exact absurd hb hv
      rcases Nat.lt_trichotomy (doms v).length (doms c0).length with hlt | hrest
      · have hstep : selStep cw doms asg (some c0) v = some v := by
          simp [selStep, hv, hlt]
        rw [hstep]
        obtain ⟨c, hfold, hcu, hmem, hle, hmin, htie0, hties⟩ := ih v hvu
        refine ⟨c, hfold, hcu, ?_, ?_, ?_, ?_, ?_⟩
        · rcases hmem with hc | hc
          · exact Or.inr (hc ▸ List.mem_cons_self v l')
          · exact Or.inr (List.mem_cons_of_mem v hc)
        · exact le_of_lt (lt_of_le_of_lt hle hlt)
        · intro u hu huu
          rcases List.mem_cons.mp hu with huv | hu'
          · rw [huv]
            exact hle
          · exact hmin u hu' huu
        · intro heq
          exact absurd heq (by omega)
        · intro u hu huu hutie
          rcases List.mem_cons.mp hu with huv | hu'
          · rw [huv]
            refine htie0 ?_
            rw [← huv, hutie]
          · exact hties u hu' huu hutie
      · rcases hrest with heq | hgt
        · by_cases hdeg : (neighbors cw v).length > (neighbors cw c0).length
          · have hstep : selStep cw doms asg (some c0) v = some v := by
              simp [selStep, hv, heq, hdeg]
            rw [hstep]
            obtain ⟨c, hfold, hcu, hmem, hle, hmin, htie0, hties⟩ := ih v hvu
            refine ⟨c, hfold, hcu, ?_, ?_, ?_, ?_, ?_⟩
            · rcases hmem with hc | hc
              · exact Or.inr (hc ▸ List.mem_cons_self v l')
              · exact Or.inr (List.mem_cons_of_mem v hc)
            · exact le_of_le_of_eq hle heq
            · intro u hu huu
              rcases List.mem_cons.mp hu with huv | hu'
              · rw [huv]
                exact hle
              · exact hmin u hu' huu
            · intro htc0
              have htv : (doms c).length = (doms v).length := by omega
              exact le_trans (le_of_lt hdeg) (htie0 htv)
            · intro u hu huu hutie
              rcases List.mem_cons.mp hu with huv | hu'
              · rw [huv]
                refine htie0 ?_
                rw [← huv, hutie]
              · exact hties u hu' huu hutie
          · have hstep : selStep cw doms asg (some c0) v = some c0 := by
              simp [selStep, hv, heq, hdeg]
            rw [hstep]
            obtain ⟨c, hfold, hcu, hmem, hle, hmin, htie0, hties⟩ := ih c0 hc0
            refine ⟨c, hfold, hcu, ?_, hle, ?_, htie0, ?_⟩
            · rcases hmem with hc | hc
              · exact Or.inl hc
              · exact Or.inr (List.mem_cons_of_mem v hc)
            · intro u hu huu
              rcases List.mem_cons.mp hu with huv | hu'
              · rw [huv]
                omega
              · exact hmin u hu' huu
            · intro u hu huu hutie
              rcases List.mem_cons.mp hu with huv | hu'
              · have htc0 : (doms c).length = (doms c0).length := by
                  rw [← hutie, huv, heq]
                rw [huv]
                exact le_trans (le_of_not_lt hdeg) (htie0 htc0)
              · exact hties u hu' huu hutie
        · have hstep : selStep cw doms asg (some c0) v = some c0 := by
            have hne : (doms v).length ≠ (doms c0).length := by omega
            have hnlt : ¬(doms v).length < (doms c0).length := by omega
            simp [selStep, hv, hne, hnlt]
          rw [hstep]
          obtain ⟨c, hfold, hcu, hmem, hle, hmin, htie0, hties⟩ := ih c0 hc0
          refine ⟨c, hfold, hcu, ?_, hle, ?_, htie0, ?_⟩
          · rcases hmem with hc | hc
            · exact Or.inl hc
            · exact Or.inr (List.mem_cons_of_mem v hc)
          · intro u hu huu
            rcases List.mem_cons.mp hu with huv | hu'
            · rw [huv]
              omega
            · exact hmin u hu' huu
          · intro u hu huu hutie
            rcases List.mem_cons.mp hu with huv | hu'
            · rw [huv] at hutie ⊢
              omega
            · exact hties u hu' huu hutie

theorem selFold_none (cw : Crossword) (doms : Doms) (asg : Asg) :
    ∀ (l : List Variable), (∃ v ∈ l, assigned asg v = false) →
      ∃ c, l.foldl (selStep cw doms asg) none = some c ∧
        c ∈ l ∧ assigned asg c = false ∧
        (∀ v ∈ l, assigned asg v = false → (doms c).length ≤ (doms v).length) ∧
        (∀ v ∈ l, assigned asg v = false → (doms v).length = (doms c).length →
          (neighbors cw v).length ≤ (neighbors cw c).length) := by
  intro l
  induction l with
  | nil =>
    intro h
    simp at h
  | cons v l' ih =>
    intro h
    rw [List.foldl_cons]
    by_cases hv : assigned asg v = true
    · have hstep : selStep cw doms asg none v = none := by
        simp [selStep, hv]
      rw [hstep]
      have h' : ∃ u ∈ l', assigned asg u = false := by
        rcases h with ⟨u, hu, huu⟩
        rcases List.mem_cons.mp hu with huv | hu'
        · rw [huv] at huu
          rw [huu] at hv
          cases hv
        · exact ⟨u, hu', huu⟩
      obtain ⟨c, hfold, hcm, hcu, hmin, hties⟩ := ih h'
      refine ⟨c, hfold, List.mem_cons_of_mem v hcm, hcu, ?_, ?_⟩
      · intro u hu huu
        rcases List.mem_cons.mp hu with huv | hu'
        · rw [huv] at huu
          rw [huu] at hv
          cases hv
        · exact hmin u hu' huu
      · intro u hu huu hutie
        rcases List.mem_cons.mp hu with huv | hu'
        · rw [huv] at huu
          rw [huu] at hv
          cases hv
        · exact hties u hu' huu hutie
    · have hvu : assigned asg v = false := by
        cases hb : assigned asg v
        · rfl
        · exact absurd hb hv
      have hstep : selStep cw doms asg none v = some v := by
        simp [selStep, hv]
      rw [hstep]
      obtain ⟨c, hfold, hcu, hmem, hle, hmin, htie0, hties⟩ := selFold_some cw doms asg l' v hvu
      refine ⟨c, hfold, ?_, hcu, ?_, ?_⟩
      · rcases hmem with hc | hc
        · exact hc ▸ List.mem_cons_self v l'
        · exact List.mem_cons_of_mem v hc
      · intro u hu huu
        rcases List.mem_cons.mp hu with huv | hu'
        · rw [huv]
          exact hle
        · exact hmin u hu' huu
      · intro u hu huu hutie
        rcases List.mem_cons.mp hu with huv | hu'
        · rw [huv]
          refine htie0 ?_
          rw [← huv, hutie]
        · exact hties u hu' huu hutie

/-- C7: whenever some variable is unassigned, `select_unassigned_variable`
returns an unassigned variable whose current domain size is minimal among
the unassigned variables and which, among the unassigned variables of that
minimal domain size, has the maximum number of neighbors. -/
theorem select_unassigned_variable_spec (cw : Crossword) (doms : Doms) (asg : Asg)
    (h : ∃ v ∈ cw.vars, assigned asg v = false) :
    ∃ c, select_unassigned_variable cw doms asg = some c ∧
      c ∈ cw.vars ∧ assigned asg c = false ∧
      (∀ v ∈ cw.vars, assigned asg v = false → (doms c).length ≤ (doms v).length) ∧
      (∀ v ∈ cw.vars, assigned asg v = false → (doms v).length = (doms c).length →
        (neighbors cw v).length ≤ (neighbors cw c).length) := by
  obtain ⟨c, hfold, hcm, hcu, hmin, hties⟩ := selFold_none cw doms asg cw.vars h
  exact ⟨c, hfold, hcm, hcu, hmin, hties⟩

/-- Witness for `select_unassigned_variable_spec`: the empty assignment on
`cwAB`, whose slots have domain sizes 1 and 2. -/
theorem select_unassigned_variable_spec_witness :
    (∃ v ∈ cwAB.vars, assigned ([] : Asg) v = false) ∧
    (∃ c, select_unassigned_variable cwAB domsAB [] = some c ∧
      c ∈ cwAB.vars ∧ assigned ([] : Asg) c = false ∧
      (∀ v ∈ cwAB.vars, assigned ([] : Asg) v = false →
        (domsAB c).length ≤ (domsAB v).length) ∧
      (∀ v ∈ cwAB.vars, assigned ([] : Asg) v = false →
        (domsAB v).length = (domsAB c).length →
        (neighbors cwAB v).length ≤ (neighbors cwAB c).length)) :=
  ⟨by decide, select_unassigned_variable_spec cwAB domsAB [] (by decide)⟩

theorem wordLe_trans : ∀ {a b c : Word},
    wordLe a b = true → wordLe b c = true → wordLe a c = true := by
  intro a
  induction a with
  | nil =>
    intro b c _ _
    rfl
  | cons x xs ih =>
    intro b c hab hbc
    cases b with
    | nil => simp [wordLe] at hab
    | cons y ys =>
      cases c with
      | nil => simp [wordLe] at hbc
      | cons z zs =>
        by_cases hxy : x = y <;> by_cases hyz : y = z
        · have hxz : x = z := hxy.trans hyz
          simp only [wordLe, if_pos hxy, if_pos hyz, if_pos hxz] at hab hbc ⊢
          exact ih hab hbc
        · simp only [wordLe, if_pos hxy, if_neg hyz] at hab hbc ⊢
          have hxz : x ≠ z := fun hc => hyz ((hxy.symm.trans hc))
          rw [if_neg hxz]
          rw [hxy]
          exact hbc
        · simp only [wordLe, if_neg hxy, if_pos hyz] at hab hbc ⊢
          have hxz : x ≠ z := fun hc => hxy (hc.trans hyz.symm)
          rw [if_neg hxz]
          rw [← hyz]
          exact hab
        · simp only [wordLe, if_neg hxy, if_neg hyz, decide_eq_true_eq] at hab hbc ⊢
          have hxz : x < z := lt_trans hab hbc
          rw [if_neg (ne_of_lt hxz)]
          simpa using hxz

theorem wordLe_total : ∀ (a b : Word), (wordLe a b || wordLe b a) = true := by
  intro a
  induction a with
  | nil =>
    intro b
    rfl
  | cons x xs ih =>
    intro b
    cases b with
    | nil => rfl
    | cons y ys =>
      by_cases hxy : x = y
      · simp only [wordLe, if_pos hxy, if_pos hxy.symm]
        exact ih ys
      · rcases lt_or_gt_of_ne hxy with hlt | hgt
        · simp [wordLe, hxy, hlt]
        · simp [wordLe, hxy, Ne.symm hxy, hgt]

theorem tupleLe_trans (a b c : Nat × Word)
    (hab : tupleLe a b = true) (hbc : tupleLe b c = true) : tupleLe a c = true := by
  simp only [tupleLe, Bool.or_eq_true, Bool.and_eq_true, decide_eq_true_eq] at hab hbc ⊢
  rcases hab with h1 | ⟨h1, h1'⟩ <;> rcases hbc with h2 | ⟨h2, h2'⟩
  · exact Or.inl (lt_trans h1 h2)
  · exact Or.inl (h2 ▸ h1)
  · exact Or.inl (h1 ▸ h2)
  · exact Or.inr ⟨h1.trans h2, wordLe_trans h1' h2'⟩

theorem tupleLe_total (a b : Nat × Word) : (tupleLe a b || tupleLe b a) = true := by
  simp only [tupleLe, Bool.or_eq_true, Bool.and_eq_true, decide_eq_true_eq]
  rcases Nat.lt_trichotomy a.1 b.1 with h | h | h
  · exact Or.inl (Or.inl h)
  · rcases Bool.or_eq_true _ _ |>.mp (wordLe_total a.2 b.2) with hw | hw
    · exact Or.inl (Or.inr ⟨h, hw⟩)
    · exact Or.inr (Or.inr ⟨h.symm, hw⟩)
  · exact Or.inr (Or.inl h)

/-- C8 (counterexample): with no unassigned neighbours every conflict count
is 0, yet `order_domain_values` returns the tied candidates in lexicographic
word order (`values.sort()` compares the `(conflicts, val1)` tuples, falling
back to string comparison), not in their encounter order from the domain. -/
theorem order_domain_values_reorders_ties :
    domsDogCat vA = [wdog, wcat] ∧
    conflictCount cwOne domsDogCat [] vA wdog = conflictCount cwOne domsDogCat [] vA wcat ∧
    order_domain_values cwOne domsDogCat [] vA = [wcat, wdog] := by
  refine ⟨rfl, by decide, ?_⟩
  unfold order_domain_values
  rw [show ((domsDogCat vA).map
      (fun val1 => (conflictCount cwOne domsDogCat [] vA val1, val1))) =
      [(0, wdog), (0, wcat)] from by decide]
  rw [show ([(0, wdog), (0, wcat)] : List (Nat × Word)).mergeSort tupleLe =
      [(0, wcat), (0, wdog)] from by
    norm_num [List.mergeSort, List.merge, tupleLe, wordLe, wdog, wcat]
    decide]
  decide

/-- C8 (amended): `order_domain_values` returns a permutation of the domain
of `var`, sorted ascending by conflict count (the number of pairs of an
unassigned neighbour and a word in its domain whose overlap character
differs); candidates with equal conflict counts are ordered by Python's
tuple comparison, i.e. lexicographically by the word itself, not by
encounter order. -/
theorem order_domain_values_spec (cw : Crossword) (doms : Doms) (asg : Asg)
    (var : Variable) :
    (order_domain_values cw doms asg var).Perm (doms var) ∧
    (order_domain_values cw doms asg var).Pairwise (fun v1 v2 =>
      conflictCount cw doms asg var v1 < conflictCount cw doms asg var v2 ∨
      (conflictCount cw doms asg var v1 = conflictCount cw doms asg var v2 ∧
        wordLe v1 v2 = true)) := by
  unfold order_domain_values
  set values := (doms var).map (fun val1 => (conflictCount cw doms asg var val1, val1))
    with hvalues
  have hperm : (values.mergeSort tupleLe).Perm values := List.mergeSort_perm values tupleLe
  have hmapsnd : ∀ l : List Word,
      (l.map (fun val1 => (conflictCount cw doms asg var val1, val1))).map Prod.snd = l := by
    intro l
    induction l with
    | nil => rfl
    | cons a l ih => simp [ih]
  constructor
  · have h1 : ((values.mergeSort tupleLe).map Prod.snd).Perm (values.map Prod.snd) :=
      hperm.map Prod.snd
    have h2 : values.map Prod.snd = doms var := by
      rw [hvalues]
      exact hmapsnd (doms var)
    rw [h2] at h1
    exact h1
  · have hsort := List.sorted_mergeSort
      (fun a b c => tupleLe_trans a b c) (fun a b => tupleLe_total a b) values
    have hfst : ∀ t ∈ values.mergeSort tupleLe,
        t.1 = conflictCount cw doms asg var t.2 := by
      intro t ht
      have : t ∈ values := hperm.mem_iff.mp ht
      rw [hvalues] at this
      rcases List.mem_map.mp this with ⟨v, _, hv⟩
      rw [← hv]
    rw [List.pairwise_map]
    refine hsort.imp_of_mem ?_
    intro t u ht hu htu
    have h1 := hfst t ht
    have h2 := hfst u hu
    simp only [tupleLe, Bool.or_eq_true, Bool.and_eq_true, decide_eq_true_eq] at htu
    rcases htu with hlt | ⟨heq, hw⟩
    · exact Or.inl (h1 ▸ h2 ▸ hlt)
    · exact Or.inr ⟨h1 ▸ h2 ▸ heq, hw⟩

theorem btLoop_frame (cw : Crossword) (recurse : Doms → Asg → Option Asg × Doms)
    (hrec : ∀ d a0, (recurse d a0).2 = d) (asg : Asg) (var : Variable) :
    ∀ (vals : List Word) (doms : Doms),
      (btLoop cw recurse asg var doms vals).2 = doms := by
  intro vals
  induction vals with
  | nil => intro doms; rfl
  | cons val rest ih =>
    intro doms
    rcases hr : recurse doms (asg ++ [(var, val)]) with ⟨r, doms1⟩
    have hd1 : doms1 = doms := by
      have hx := hrec doms (asg ++ [(var, val)])
      rw [hr] at hx
      exact hx
    by_cases hcons : consistent cw (asg ++ [(var, val)]) = true
    · have hstep : btLoop cw recurse asg var doms (val :: rest) =
          (if resultTruthy r then (r, doms1) else btLoop cw recurse asg var doms1 rest) := by
        simp only [btLoop, hr, hcons, if_true]
      rw [hstep]
      by_cases ht : resultTruthy r = true
      · rw [if_pos ht]
        exact hd1
      · rw [if_neg ht, hd1]
        exact ih doms
    · have hcons' : consistent cw (asg ++ [(var, val)]) = false := by
        cases hb : consistent cw (asg ++ [(var, val)])
        · rfl
        · exact absurd hb hcons
      have hstep : btLoop cw recurse asg var doms (val :: rest) =
          btLoop cw recurse asg var doms rest := by
        simp only [btLoop, hcons', Bool.false_eq_true, if_false]
      rw [hstep]
      exact ih doms

theorem backtrackFuel_frame (cw : Crossword) :
    ∀ (fuel : Nat) (doms : Doms) (asg : Asg),
      (backtrackFuel cw fuel doms asg).2 = doms := by
  intro fuel
  induction fuel with
  | zero => intro doms asg; rfl
  | succ fuel ih =>
    intro doms asg
    by_cases hc : assignment_complete cw asg = true
    · have hstep : backtrackFuel cw (fuel + 1) doms asg = (some asg, doms) := by
        simp only [backtrackFuel, hc, if_true]
      rw [hstep]
    · have hc' : assignment_complete cw asg = false := by
        cases hb : assignment_complete cw asg
        · rfl
        · exact absurd hb hc
      cases hs : select_unassigned_variable cw doms asg with
      | none =>
        have hstep : backtrackFuel cw (fuel + 1) doms asg = (none, doms) := by
          simp only [backtrackFuel, hc', Bool.false_eq_true, if_false, hs]
        rw [hstep]
      | some var =>
        have hstep : backtrackFuel cw (fuel + 1) doms asg =
            btLoop cw (fun d a0 => backtrackFuel cw fuel d a0) asg var doms (doms var) := by
          simp only [backtrackFuel, hc', Bool.false_eq_true, if_false, hs]
        rw [hstep]
        exact btLoop_frame cw _ (fun d a0 => ih d a0) asg var (doms var) doms

/-- C9: running `backtrack` leaves the domain store exactly as it was: the
search phase reads `self.domains` but only ever mutates (and rolls back)
the assignment mapping.  The store is threaded through the embedding
explicitly, so this is a provable frame property. -/
theorem backtrack_preserves_domains (cw : Crossword) (doms : Doms) (asg : Asg) :
    (backtrack cw doms asg).2 = doms :=
  backtrackFuel_frame cw _ doms asg

theorem lookup_eq_some_of_mem :
    ∀ {asg : Asg}, (asg.map Prod.fst).Nodup →
      ∀ {p : Variable × Word}, p ∈ asg → asg.lookup p.1 = some p.2 := by
  intro asg
  induction asg with
  | nil =>
    intro _ p hp
    cases hp
  | cons q rest ih =>
    intro hnd p hp
    obtain ⟨k, w⟩ := q
    have hnd2 : (k :: rest.map Prod.fst).Nodup := by simpa using hnd
    have hqk : k ∉ rest.map Prod.fst := (List.nodup_cons.mp hnd2).1
    have hrest : (rest.map Prod.fst).Nodup := (List.nodup_cons.mp hnd2).2
    rcases List.mem_cons.mp hp with hpq | hp'
    · rw [hpq]
      simp [List.lookup]
    · have hk2 : (p.1 == k) = false := by
        refine beq_eq_false_iff_ne.mpr ?_
        intro hc
        exact hqk (hc ▸ List.mem_map_of_mem Prod.fst hp')
      rw [show ((k, w) :: rest : Asg).lookup p.1 = rest.lookup p.1 from by
        simp [List.lookup, hk2]]
      exact ih hrest hp'

theorem assigned_false_iff {asg : Asg} {v : Variable} :
    assigned asg v = false ↔ v ∉ asg.map Prod.fst := by
  induction asg with
  | nil => simp [assigned, List.lookup]
  | cons q rest ih =>
    obtain ⟨k, w⟩ := q
    by_cases hk : (v == k) = true
    · have hkv : v = k := by simpa using hk
      rw [show assigned ((k, w) :: rest) v = true from by simp [assigned, List.lookup, hk]]
      simp [hkv]
    · have hk2 : (v == k) = false := by
        cases hb : (v == k)
        · rfl
        · exact absurd hb hk
      rw [show assigned ((k, w) :: rest) v = assigned rest v from by
        simp [assigned, List.lookup, hk2]]
      rw [ih]
      have hkv : v ≠ k := by simpa using hk2
      simp [hkv]

theorem mem_keys_lookup_isSome {asg : Asg} {v : Variable}
    (hv : v ∈ asg.map Prod.fst) : ∃ w, asg.lookup v = some w := by
  have : ¬(assigned asg v = false) := fun hc => (assigned_false_iff.mp hc) hv
  have hsome : (asg.lookup v).isSome = true := by
    cases hb : (asg.lookup v).isSome
    · exact absurd hb this
    · rfl
  exact Option.isSome_iff_exists.mp hsome

theorem assignment_complete_true {cw : Crossword} {asg : Asg}
    (h : assignment_complete cw asg = true) :
    asg.length = cw.vars.length ∧ ∀ p ∈ asg, p.2 ≠ [] := by
  unfold assignment_complete at h
  by_cases hlen : asg.length ≠ cw.vars.length
  · rw [if_pos hlen] at h
    cases h
  · rw [if_neg hlen] at h
    push_neg at hlen
    refine ⟨hlen, ?_⟩
    intro p hp
    have hx := List.all_eq_true.mp h p hp
    simpa [List.isEmpty_iff] using hx

theorem selFold_some_inv (cw : Crossword) (doms : Doms) (asg : Asg) :
    ∀ (l : List Variable) (acc : Option Variable) (c : Variable),
      l.foldl (selStep cw doms asg) acc = some c →
      acc = some c ∨ (c ∈ l ∧ assigned asg c = false) := by
  intro l
  induction l with
  | nil =>
    intro acc c h
    exact Or.inl h
  | cons v l' ih =>
    intro acc c h
    rw [List.foldl_cons] at h
    rcases ih (selStep cw doms asg acc v) c h with hacc | hmem
    · by_cases hv : assigned asg v = true
      · rw [show selStep cw doms asg acc v = acc from by simp [selStep, hv]] at hacc
        exact Or.inl hacc
      · have hvu : assigned asg v = false := by
          cases hb : assigned asg v
          · rfl
          · exact absurd hb hv
        cases acc with
        | none =>
          rw [show selStep cw doms asg none v = some v from by simp [selStep, hv]] at hacc
          have hcv : v = c := by simpa using hacc
          exact Or.inr ⟨hcv ▸ List.mem_cons_self v l', hcv ▸ hvu⟩
        | some c0 =>
          have halt : selStep cw doms asg (some c0) v = some c0 ∨
              selStep cw doms asg (some c0) v = some v := by
            rw [show selStep cw doms asg (some c0) v =
              (if (doms v).length < (doms c0).length then some v
               else if (doms v).length = (doms c0).length then
                 (if (neighbors cw v).length > (neighbors cw c0).length
                  then some v else some c0)
               else some c0) from by simp [selStep, hv]]
            split
            · exact Or.inr rfl
            · split
              · split
                · exact Or.inr rfl
                · exact Or.inl rfl
              · exact Or.inl rfl
          rcases halt with h1 | h1 <;> rw [h1] at hacc
          · exact Or.inl hacc
          · have hcv : v = c := by simpa using hacc
            exact Or.inr ⟨hcv ▸ List.mem_cons_self v l', hcv ▸ hvu⟩
    · exact Or.inr ⟨List.mem_cons_of_mem v hmem.1, hmem.2⟩

theorem select_some_spec {cw : Crossword} {doms : Doms} {asg : Asg} {var : Variable}
    (h : select_unassigned_variable cw doms asg = some var) :
    var ∈ cw.vars ∧ assigned asg var = false := by
  rcases selFold_some_inv cw doms asg cw.vars none var h with hacc | hmem
  · cases hacc
  · exact hmem

theorem btLoop_some (cw : Crossword) (recurse : Doms → Asg → Option Asg × Doms)
    (hrec : ∀ d a0, (recurse d a0).2 = d) (asg : Asg) (var : Variable) :
    ∀ (vals : List Word) (doms : Doms) (a : Asg),
      (btLoop cw recurse asg var doms vals).1 = some a →
      ∃ val ∈ vals, consistent cw (asg ++ [(var, val)]) = true ∧
        (recurse doms (asg ++ [(var, val)])).1 = some a ∧ a.isEmpty = false := by
  intro vals
  induction vals with
  | nil =>
    intro doms a h
    exact Option.noConfusion h
  | cons val rest ih =>
    intro doms a h
    rcases hr : recurse doms (asg ++ [(var, val)]) with ⟨r, doms1⟩
    have hd1 : doms1 = doms := by
      have hx := hrec doms (asg ++ [(var, val)])
      rw [hr] at hx
      exact hx
    by_cases hcons : consistent cw (asg ++ [(var, val)]) = true
    · have hstep : btLoop cw recurse asg var doms (val :: rest) =
          (if resultTruthy r then (r, doms1) else btLoop cw recurse asg var doms1 rest) := by
        simp only [btLoop, hr, hcons, if_true]
      rw [hstep] at h
      by_cases ht : resultTruthy r = true
      · rw [if_pos ht] at h
        cases r with
        | none => cases ht
        | some a0 =>
          have ha0 : a0 = a := by simpa using h
          refine ⟨val, List.mem_cons_self val rest, hcons, ?_, ?_⟩
          · rw [hr, ha0]
          · have := ht
            rw [← ha0]
            simpa [resultTruthy] using this
      · rw [if_neg ht, hd1] at h
        obtain ⟨v2, hv2, hc2, hr2, he2⟩ := ih doms a h
        exact ⟨v2, List.mem_cons_of_mem val hv2, hc2, hr2, he2⟩
    · have hcons' : consistent cw (asg ++ [(var, val)]) = false := by
        cases hb : consistent cw (asg ++ [(var, val)])
        · rfl
        · exact absurd hb hcons
      have hstep : btLoop cw recurse asg var doms (val :: rest) =
          btLoop cw recurse asg var doms rest := by
        simp only [btLoop, hcons', Bool.false_eq_true, if_false]
      rw [hstep] at h
      obtain ⟨v2, hv2, hc2, hr2, he2⟩ := ih doms a h
      exact ⟨v2, List.mem_cons_of_mem val hv2, hc2, hr2, he2⟩

theorem backtrackFuel_sound (cw : Crossword) :
    ∀ (fuel : Nat) (doms : Doms) (asg : Asg) (a : Asg),
      (asg.map Prod.fst).Nodup →
      (∀ p ∈ asg, p.1 ∈ cw.vars) →
      consistent cw asg = true →
      (backtrackFuel cw fuel doms asg).1 = some a →
      (a.map Prod.fst).Nodup ∧ (∀ p ∈ a, p.1 ∈ cw.vars) ∧
        consistent cw a = true ∧ assignment_complete cw a = true := by
  intro fuel
  induction fuel with
  | zero =>
    intro doms asg a _ _ _ hres
    exact Option.noConfusion hres
  | succ fuel ih =>
    intro doms asg a hnd hsub hcons hres
    by_cases hc : assignment_complete cw asg = true
    · have hstep : backtrackFuel cw (fuel + 1) doms asg = (some asg, doms) := by
        simp only [backtrackFuel, hc, if_true]
      rw [hstep] at hres
      have ha : asg = a := by simpa using hres
      rw [← ha]
      exact ⟨hnd, hsub, hcons, hc⟩
    · have hc' : assignment_complete cw asg = false := by
        cases hb : assignment_complete cw asg
        · rfl
        · exact absurd hb hc
      cases hs : select_unassigned_variable cw doms asg with
      | none =>
        have hstep : backtrackFuel cw (fuel + 1) doms asg = (none, doms) := by
          simp only [backtrackFuel, hc', Bool.false_eq_true, if_false, hs]
        rw [hstep] at hres
        exact Option.noConfusion hres
      | some var =>
        have hstep : backtrackFuel cw (fuel + 1) doms asg =
            btLoop cw (fun d a0 => backtrackFuel cw fuel d a0) asg var doms (doms var) := by
          simp only [backtrackFuel, hc', Bool.false_eq_true, if_false, hs]
        rw [hstep] at hres
        obtain ⟨hvm, hvu⟩ := select_some_spec hs
        obtain ⟨val, _, hcons2, hrec2, _⟩ :=
          btLoop_some cw _ (fun d a0 => backtrackFuel_frame cw fuel d a0) asg var
            (doms var) doms a hres
        refine ih doms (asg ++ [(var, val)]) a ?_ ?_ hcons2 hrec2
        · rw [List.map_append]
          refine List.Nodup.append hnd (by simp) ?_
          intro k hk1 hk2
          simp only [List.map_cons, List.map_nil, List.mem_singleton] at hk2
          exact (assigned_false_iff.mp hvu) (hk2 ▸ hk1)
        · intro p hp
          rcases List.mem_append.mp hp with hp1 | hp2
          · exact hsub p hp1
          · have : p = (var, val) := by simpa using hp2
            rw [this]
            exact hvm

/-- C4: every assignment returned by `backtrack` started from the empty
assignment (as `solve` does) is complete and valid: it assigns a word to
every variable, each assigned word is non-empty and has its variable's
length, all assigned words are pairwise distinct, and every overlapping
assigned pair agrees at the overlap indices. -/
theorem backtrack_solution_valid (cw : Crossword) (doms : Doms) (a : Asg)
    (h : (backtrack cw doms []).1 = some a) :
    (∀ v ∈ cw.vars, ∃ w, a.lookup v = some w) ∧
    (∀ p ∈ a, p.1 ∈ cw.vars ∧ p.2.length = p.1.length ∧ p.2 ≠ []) ∧
    (∀ p ∈ a, ∀ q ∈ a, p.1 ≠ q.1 → p.2 ≠ q.2) ∧
    (∀ p ∈ a, ∀ q ∈ a, ∀ i j, cw.overlaps p.1 q.1 = some (i, j) →
      p.2[i]? = q.2[j]?) := by
  obtain ⟨hnd, hsub, hcons, hcomp⟩ :=
    backtrackFuel_sound cw (unassignedCount cw [] + 1) doms [] a
      (by simp) (by simp) rfl h
  obtain ⟨hlen, hnonempty⟩ := assignment_complete_true hcomp
  have hspec := (consistent_spec cw a hnd).mp hcons
  have hkeys : ∀ v ∈ cw.vars, v ∈ a.map Prod.fst := by
    have hsubkeys : a.map Prod.fst ⊆ cw.vars := by
      intro k hk
      rcases List.mem_map.mp hk with ⟨p, hp, hpk⟩
      exact hpk ▸ hsub p hp
    have hsp : (a.map Prod.fst).Subperm cw.vars :=
      List.subperm_of_subset hnd hsubkeys
    have hperm : (a.map Prod.fst).Perm cw.vars :=
      hsp.perm_of_length_le (by simpa [hlen] using le_refl _)
    intro v hv
    exact hperm.mem_iff.mpr hv
  refine ⟨?_, ?_, ?_, ?_⟩
  · intro v hv
    exact mem_keys_lookup_isSome (hkeys v hv)
  · intro p hp
    exact ⟨hsub p hp, (hspec p hp (hnonempty p hp)).1, hnonempty p hp⟩
  · intro p hp q hq hne
    exact fun hc => (hspec p hp (hnonempty p hp)).2.1 q hq (Ne.symm hne) hc.symm
  · intro p hp q hq i j hov
    have hne : p.1 ≠ q.1 := by
      intro hc
      rw [hc, cw.overlaps_irrefl] at hov
      cases hov
    have hqn : q.1 ∈ neighbors cw p.1 := by
      unfold neighbors
      refine List.mem_filter.mpr ⟨hsub q hq, ?_⟩
      have hov2 : cw.overlaps q.1 p.1 = some (j, i) := cw.overlaps_symm _ _ _ _ hov
      simp [Ne.symm hne, hov2]
    have hlk : a.lookup q.1 = some q.2 := lookup_eq_some_of_mem hnd hq
    exact (hspec p hp (hnonempty p hp)).2.2 q.1 hqn q.2 hlk i j hov

/-- Witness for `backtrack_solution_valid`: `cwOne` is solved by assigning
`"cat"` to its single slot. -/
theorem backtrack_solution_valid_witness :
    (backtrack cwOne (initialDoms cwOne) []).1 = some [(vA, wcat)] ∧
    ((∀ v ∈ cwOne.vars, ∃ w, ([(vA, wcat)] : Asg).lookup v = some w) ∧
    (∀ p ∈ ([(vA, wcat)] : Asg), p.1 ∈ cwOne.vars ∧ p.2.length = p.1.length ∧ p.2 ≠ []) ∧
    (∀ p ∈ ([(vA, wcat)] : Asg), ∀ q ∈ ([(vA, wcat)] : Asg), p.1 ≠ q.1 → p.2 ≠ q.2) ∧
    (∀ p ∈ ([(vA, wcat)] : Asg), ∀ q ∈ ([(vA, wcat)] : Asg), ∀ i j,
      cwOne.overlaps p.1 q.1 = some (i, j) → p.2[i]? = q.2[j]?)) :=
  ⟨by decide, backtrack_solution_valid cwOne (initialDoms cwOne) [(vA, wcat)] (by decide)⟩
